import Mathlib

/-!
Shallow embedding of the attribute classification and interactive legend
subsystem of `spatial-sql-explorer` (`src/js/app.js`), together with proofs
of the specification's testable properties.

Modelling conventions:
* JavaScript numbers are modelled by exact rationals `ℚ`; IEEE-754 rounding
  is not modelled (the spec states its numeric claims "within floating
  tolerance").
* `Array.prototype.sort((a, b) => a - b)` on rationals is an ascending sort;
  it is modelled by `List.insertionSort (· ≤ ·)`.
* `Math.min(...values)` / `Math.max(...values)` are modelled by `jsMinList` /
  `jsMaxList`, faithful for non-empty argument lists (the empty case produces
  the IEEE infinities, which `ℚ` does not contain; every theorem below that
  relies on these definitions carries a non-emptiness hypothesis).
* A JavaScript value that may be `undefined` (out-of-range array read) is
  modelled by `Option ℚ`, with `none` standing for `undefined`.
* A thrown `TypeError` (property access on `undefined`, e.g. `mat1[-1][i]`)
  is modelled by `Except.error`.
* `Infinity` entries of the Jenks cost matrix are modelled by `⊤ : WithTop ℚ`.
-/

set_option maxRecDepth 100000
set_option maxHeartbeats 1000000

namespace SpatialSqlExplorer

/-- Ascending numeric sort, `[...xs].sort((a, b) => a - b)` applied to the
fresh copy. -/
def sortAsc (l : List ℚ) : List ℚ := l.insertionSort (· ≤ ·)

/-- Model of `Math.min(...values)`; faithful for non-empty `values`. -/
def jsMinList : List ℚ → ℚ
  | [] => 0
  | h :: t => t.foldl min h

/-- Model of `Math.max(...values)`; faithful for non-empty `values`. -/
def jsMaxList : List ℚ → ℚ
  | [] => 0
  | h :: t => t.foldl max h

/-- `m` is the minimum of the sample `values`. -/
def IsMinOf (m : ℚ) (values : List ℚ) : Prop :=
  m ∈ values ∧ ∀ x ∈ values, m ≤ x

/-- `m` is the maximum of the sample `values`. -/
def IsMaxOf (m : ℚ) (values : List ℚ) : Prop :=
  m ∈ values ∧ ∀ x ∈ values, x ≤ m

/-- Embedding of `classifyEqualInterval(values, n)` from `src/js/app.js`
(lines 991–999): `breaks[i] = min + step * i` for `i = 0 .. n` with
`step = (max - min) / n`, and the last entry clamped to `max`. -/
def classifyEqualInterval (values : List ℚ) (n : ℕ) : List ℚ :=
  let mn := jsMinList values
  let mx := jsMaxList values
  let step := (mx - mn) / (n : ℚ)
  let breaks := (List.range (n + 1)).map (fun (i : ℕ) => mn + step * (i : ℚ))
  breaks.dropLast ++ [mx]

/-- Embedding of `classifyQuantile(values, n)` from `src/js/app.js`
(lines 1001–1010): sort a copy ascending, then
`breaks = [sorted[0], sorted[⌊(i/n)·N⌋] for i = 1..n-1, sorted[N-1]]`. -/
def classifyQuantile (values : List ℚ) (n : ℕ) : List ℚ :=
  let sorted := sortAsc values
  sorted.getD 0 0 ::
    ((List.range' 1 (n - 1)).map (fun i => sorted.getD (i * sorted.length / n) 0) ++
      [sorted.getD (sorted.length - 1) 0])

/-- Read entry `(i, j)` of a matrix represented as a list of rows, with a
default for out-of-range indices. -/
def mget {α : Type} (m : List (List α)) (i j : ℕ) (d : α) : α :=
  (m.getD i []).getD j d

/-- Write entry `(i, j)` of a matrix represented as a list of rows
(out-of-range writes are dropped, as they never occur in-range here). -/
def mset {α : Type} (m : List (List α)) (i j : ℕ) (v : α) : List (List α) :=
  m.set i ((m.getD i []).set j v)

/-- Model of `sorted[id]` for a possibly negative index `id`: `undefined`
(`none`) outside the array bounds. -/
def sGet (sorted : List ℚ) (id : ℤ) : Option ℚ :=
  if 0 ≤ id ∧ id < (sorted.length : ℤ) then some (sorted.getD id.toNat 0) else none

/-- One iteration `j` of the outer dynamic-programming loop of
`classifyJenks` (`src/js/app.js` lines 1025–1040): the inner loop runs
`m = j, j-1, …, 2`, maintaining running sums for the incremental SSD of the
segment `m..j`, and relaxes `mat2[j][k]` for `k = 2..n`; afterwards
`mat1[j][1] = 1` and `mat2[j][1] = ssd` (the last computed `ssd`, which
covers elements `2..j` only — the source never folds element 1 into it). -/
def jenksRow (sorted : List ℚ) (n j : ℕ)
    (p : List (List ℕ) × List (List (WithTop ℚ))) :
    List (List ℕ) × List (List (WithTop ℚ)) :=
  let st := ((List.range' 2 (j - 1)).reverse).foldl
    (fun (acc : ℚ × ℚ × ℕ × ℚ × List (List ℕ) × List (List (WithTop ℚ))) m =>
      let sumX := acc.1
      let sumX2 := acc.2.1
      let w := acc.2.2.1 + 1
      let m1 := acc.2.2.2.2.1
      let m2 := acc.2.2.2.2.2
      let val := sorted.getD (m - 1) 0
      let sumX' := sumX + val
      let sumX2' := sumX2 + val * val
      let ssd := sumX2' - sumX' * sumX' / (w : ℚ)
      let q := (List.range' 2 (n - 1)).foldl
        (fun (q : List (List ℕ) × List (List (WithTop ℚ))) k =>
          let cand := (ssd : WithTop ℚ) + mget q.2 (m - 1) (k - 1) ⊤
          if cand ≤ mget q.2 j k ⊤ then (mset q.1 j k m, mset q.2 j k cand)
          else q)
        (m1, m2)
      (sumX', sumX2', w, ssd, q.1, q.2))
    (0, 0, 0, 0, p.1, p.2)
  (mset st.2.2.2.2.1 j 1 1, mset st.2.2.2.2.2 j 1 (st.2.2.2.1 : WithTop ℚ))

/-- The two Jenks matrices after initialisation and the full double loop
(`src/js/app.js` lines 1018–1040): `mat1` (backtrack indices, initially 0)
and `mat2` (costs, initially `Infinity`), with row 1 seeded to
`mat1[1][i] = 1`, `mat2[1][i] = 0` for `i = 1..n`. -/
def jenksMatrices (sorted : List ℚ) (n : ℕ) :
    List (List ℕ) × List (List (WithTop ℚ)) :=
  let len := sorted.length
  let mat1 : List (List ℕ) := List.replicate (len + 1) (List.replicate (n + 1) 0)
  let mat2 : List (List (WithTop ℚ)) :=
    List.replicate (len + 1) (List.replicate (n + 1) ⊤)
  let p := (List.range' 1 n).foldl
    (fun (p : List (List ℕ) × List (List (WithTop ℚ))) i =>
      (mset p.1 1 i 1, mset p.2 1 i (0 : WithTop ℚ)))
    (mat1, mat2)
  let m2 := (List.range' 2 (len - 1)).foldl (fun m j => mset m j 1 ⊤) p.2
  (List.range' 2 (len - 1)).foldl (fun p j => jenksRow sorted n j p) (p.1, m2)

/-- The backtracking loop of `classifyJenks` (`src/js/app.js` lines
1045–1051), producing the middle breaks `[breaks[1], …, breaks[n-1]]`.
The first argument of the recursion is the loop variable `i` (from `n` down
to 2), the second the running index `k` (a JavaScript number, possibly
negative).  Reading `mat1[k]` outside `0..len` yields `undefined`, and the
subsequent `[i]` access throws — modelled by `Except.error`. -/
def btk (mat1 : List (List ℕ)) (sorted : List ℚ) : ℕ → ℤ → Except Unit (List (Option ℚ))
  | 0, _ => .ok []
  | 1, _ => .ok []
  | (i + 2), k =>
    if k < 0 ∨ (mat1.length : ℤ) ≤ k then .error ()
    else
      let id : ℤ := ((mget mat1 k.toNat (i + 2) 0 : ℕ) : ℤ) - 1
      (btk mat1 sorted (i + 1) id).map (fun rest => rest ++ [sGet sorted id])

/-- Embedding of `classifyJenks(values, n)` from `src/js/app.js` (lines
1012–1053).  When `N ≤ n` the source returns `[sorted[0], ...sorted,
sorted[N-1]]`; otherwise it runs the dynamic program and backtracks. -/
def classifyJenks (values : List ℚ) (n : ℕ) : Except Unit (List (Option ℚ)) :=
  let sorted := sortAsc values
  let len := sorted.length
  if len ≤ n then
    .ok (sGet sorted 0 :: (sorted.map some ++ [sGet sorted ((len : ℤ) - 1)]))
  else
    let mats := jenksMatrices sorted n
    (btk mats.1 sorted n (len : ℤ)).map
      (fun mid => sGet sorted 0 :: (mid ++ [sGet sorted ((len : ℤ) - 1)]))

/-- Embedding of `getBreaks(values, method, n)` from `src/js/app.js` (lines
1055–1059); the quantile and equal-interval branches cannot throw and never
produce `undefined`, hence the uniform `.ok`/`some` wrapping. -/
def getBreaks (values : List ℚ) (method : String) (n : ℕ) :
    Except Unit (List (Option ℚ)) :=
  if method = "jenks" then classifyJenks values n
  else if method = "equal" then .ok ((classifyEqualInterval values n).map some)
  else .ok ((classifyQuantile values n).map some)

/-! ### Color ramps (`interpolateRampToN`, `lerpColor`) -/

/-- A color, as the three 0–255 channel values parsed from a `#rrggbb` hex
string (the hex parsing/formatting of `lerpColor` is presentational and is
modelled by working on channels directly). -/
structure RGB where
  r : ℤ
  g : ℤ
  b : ℤ
deriving DecidableEq, Repr, Inhabited

/-- Model of `Math.round` (round half toward positive infinity). -/
def jsRound (x : ℚ) : ℤ := ⌊x + 1 / 2⌋

/-- Embedding of `lerpColor(a, b, t)` from `src/js/app.js` (lines
1081–1090): per-channel linear interpolation with rounding. -/
def lerpColor (a b : RGB) (t : ℚ) : RGB :=
  ⟨jsRound ((a.r : ℚ) + ((b.r : ℚ) - (a.r : ℚ)) * t),
   jsRound ((a.g : ℚ) + ((b.g : ℚ) - (a.g : ℚ)) * t),
   jsRound ((a.b : ℚ) + ((b.b : ℚ) - (a.b : ℚ)) * t)⟩

/-- Embedding of `interpolateRampToN(ramp, n)` from `src/js/app.js` (lines
1066–1079): if the base ramp already has `n` stops return it as-is,
otherwise resample linearly to exactly `n` stops. -/
def interpolateRampToN (ramp : List RGB) (n : ℕ) : List RGB :=
  if ramp.length = n then ramp
  else
    (List.range n).map (fun (i : ℕ) =>
      let t : ℚ := (i : ℚ) / ((n : ℚ) - 1)
      let idx : ℚ := t * ((ramp.length : ℚ) - 1)
      let lo := idx.floor.toNat
      let hi := min idx.ceil.toNat (ramp.length - 1)
      let f := idx - (idx.floor : ℚ)
      lerpColor (ramp.getD lo default) (ramp.getD hi default) f)

/-! ### Graduated paint expression (`applyGraduatedStyle`) -/

/-- The threshold/color stop list of the step expression built by
`applyGraduatedStyle` (`src/js/app.js` lines 1406–1410): for
`i = 1 .. n-1` push `breaks[i]` then `ramp[i]`. -/
def stepStops (breaks : List ℚ) (ramp : List RGB) (n : ℕ) : List (ℚ × RGB) :=
  (List.range' 1 (n - 1)).map (fun i => (breaks.getD i 0, ramp.getD i default))

/-- Evaluation of a `['step', input, base, t₁, c₁, …]` expression at a
column value `v`, following the renderer's documented step semantics: the
output is the color of the last stop whose threshold is `≤ v`, or the base
color when `v` is below every threshold (so a value exactly equal to a
threshold falls in the upper class). -/
def evalStep (base : RGB) (stops : List (ℚ × RGB)) (v : ℚ) : RGB :=
  stops.foldl (fun c s => if s.1 ≤ v then s.2 else c) base

/-! ### Layer filter predicates -/

/-- The filter predicates the legend controllers hand to
`setLayerFilter`: no filter (`null`), the always-false filter
`['boolean', false]`, the categorical inclusion list
`['match', ['get', col], values, true, false]`, and the range filter
`['all', ['>=', ['get', col], min], ['<=', ['get', col], max]]`. -/
inductive LayerFilter where
  | null : LayerFilter
  | boolFalse : LayerFilter
  | matchIn (col : String) (values : List String) : LayerFilter
  | range (col : String) (mn mx : ℚ) : LayerFilter
deriving DecidableEq, Repr

/-- Embedding of `applyRangeFilter(col, min, max)` from `src/js/app.js`
(lines 1719–1722). -/
def applyRangeFilter (col : String) (mn mx : ℚ) : LayerFilter :=
  .range col mn mx

/-- Embedding of `applyCategoricalFilter(col, unique)` from `src/js/app.js`
(lines 1544–1549), with the ambient `hiddenCategories` set passed
explicitly. -/
def applyCategoricalFilter (col : String) (unique : List String)
    (hidden : Finset String) : LayerFilter :=
  let visible := unique.filter (fun v => v ∉ hidden)
  if visible.length = unique.length then .null
  else if visible.length = 0 then .boolFalse
  else .matchIn col visible

/-- The category-row click handler of `renderCategoricalInteractiveLegend`
(`src/js/app.js` lines 1522–1527): delete `val` from `hiddenCategories` if
present, otherwise add it. -/
def toggleCategory (hidden : Finset String) (val : String) : Finset String :=
  if val ∈ hidden then hidden.erase val else insert val hidden

/-! ### Graduated range-drag handler (`makeDragHandler`) -/

/-- The `onMove` body of `makeDragHandler(true)` (`src/js/app.js` lines
1646–1654) for the min handle: clamp the pointer fraction to `[0, 1]`, map
it to value space, clamp against `selMax - range * 0.01`, and emit the
range filter with the clamped value.  Returns the new `selMin` together
with the emitted filter. -/
def onMoveMin (col : String) (absMin absMax selMax : ℚ)
    (clientX rectLeft rectWidth : ℚ) : ℚ × LayerFilter :=
  let range := absMax - absMin
  let pct := max 0 (min 1 ((clientX - rectLeft) / rectWidth))
  let val := absMin + pct * range
  let selMin' := min val (selMax - range * (1 / 100))
  (selMin', applyRangeFilter col selMin' selMax)

/-- The `onMove` body of `makeDragHandler(false)` for the max handle:
symmetric clamp against `selMin + range * 0.01`. -/
def onMoveMax (col : String) (absMin absMax selMin : ℚ)
    (clientX rectLeft rectWidth : ℚ) : ℚ × LayerFilter :=
  let range := absMax - absMin
  let pct := max 0 (min 1 ((clientX - rectLeft) / rectWidth))
  let val := absMin + pct * range
  let selMax' := max val (selMin + range * (1 / 100))
  (selMax', applyRangeFilter col selMin selMax')

/-! ### Style settings and the reset-on-new-result path (`runQuery`,
`updateStylePanel`) -/

/-- Embedding of the `styleSettings` object (`src/js/app.js` lines
956–965).  `opacity` is stored on the source's 0–100 scale. -/
structure StyleSettings where
  mode : String
  col : Option String
  singleColor : String
  ramp : String
  rampInverted : Bool
  method : String
  nClasses : ℕ
  opacity : ℚ
deriving DecidableEq, Repr

/-- Embedding of `DEFAULT_STYLE` (`src/js/app.js` lines 956–965). -/
def DEFAULT_STYLE : StyleSettings :=
  { mode := "single", col := none, singleColor := "#f0a500", ramp := "oranges",
    rampInverted := false, method := "quantile", nClasses := 5, opacity := 85 }

/-- The module-level mutable state touched by the result-arrival path of
`runQuery` (`src/js/app.js` lines 569–583) and `updateStylePanel`.  Rows are
abstracted to their `__id`s; cell values play no role in the reset. -/
structure AppState where
  currentRows : List ℕ
  currentCols : List String
  currentGeomCol : Option String
  selectedIds : Finset ℕ
  styleSettings : StyleSettings
  styleApplied : Bool
  hiddenCategories : Finset String
  legendFilterRange : Option (ℚ × ℚ)
  legendAllValues : List ℚ
  legendBreaks : List ℚ

/-- Embedding of `updateStylePanel(hasGeometry)` as far as it touches state
(`src/js/app.js` lines 1108–1137): bail out when there is no geometry,
otherwise reset `styleSettings` to defaults and point `styleSettings.col`
at the first column that is neither the geometry column nor `__id`. -/
def updateStylePanelModel (st : AppState) (hasGeometry : Bool) : AppState :=
  if !hasGeometry then st
  else
    let st := { st with styleSettings := DEFAULT_STYLE }
    let opts := st.currentCols.filter
      (fun c => decide (some c ≠ st.currentGeomCol) && decide (c ≠ "__id"))
    match opts.head? with
    | some c => { st with styleSettings := { st.styleSettings with col := some c } }
    | none => st

/-- The state updates `runQuery` performs when a new result set arrives
(`src/js/app.js` lines 569–583), followed by the `updateStylePanel` call
(line 586). -/
def onQueryResult (st : AppState) (rows : List ℕ) (cols : List String)
    (geojsonColName : Option String) (hasGeometry : Bool) : AppState :=
  let st1 : AppState :=
    { st with
      currentRows := rows
      currentCols := cols
      currentGeomCol := geojsonColName
      selectedIds := ∅
      styleSettings := DEFAULT_STYLE
      styleApplied := false
      hiddenCategories := ∅
      legendFilterRange := none
      legendAllValues := []
      legendBreaks := [] }
  updateStylePanelModel st1 hasGeometry

/-! ### Heap model for the frame property (C10)

JavaScript arrays are mutable references.  To state that the classification
functions do not mutate their argument, the caller's array is placed in an
explicit heap; `[...values]` allocates a fresh cell holding a copy, and
`.sort` mutates the cell it is invoked on in place. -/

/-- A heap of rational-number arrays; references are indices. -/
abbrev Heap : Type := List (List ℚ)

/-- Allocate a new array holding `l`; returns the extended heap and the
fresh reference. -/
def halloc (h : Heap) (l : List ℚ) : Heap × ℕ := (h ++ [l], h.length)

/-- Read the array behind reference `r`. -/
def hread (h : Heap) (r : ℕ) : List ℚ := h.getD r []

/-- Overwrite the array behind reference `r`. -/
def hwrite (h : Heap) (r : ℕ) (l : List ℚ) : Heap := h.set r l

/-- Heap-level embedding of `classifyQuantile`: `[...values]` allocates a
copy, `.sort((a, b) => a - b)` sorts that copy in place, and the caller's
array is never written.  Returns the final heap and the breaks. -/
def classifyQuantileH (h : Heap) (values : ℕ) (n : ℕ) : Heap × List ℚ :=
  let a := halloc h (hread h values)
  let h2 := hwrite a.1 a.2 (sortAsc (hread a.1 a.2))
  let sorted := hread h2 a.2
  (h2, sorted.getD 0 0 ::
    ((List.range' 1 (n - 1)).map (fun i => sorted.getD (i * sorted.length / n) 0) ++
      [sorted.getD (sorted.length - 1) 0]))

/-- Heap-level embedding of `classifyJenks`: as in the source, the only
array operation on the caller's data is the initial `[...values].sort`
copy; the DP matrices are fresh local arrays (pure values here). -/
def classifyJenksH (h : Heap) (values : ℕ) (n : ℕ) :
    Heap × Except Unit (List (Option ℚ)) :=
  let a := halloc h (hread h values)
  let h2 := hwrite a.1 a.2 (sortAsc (hread a.1 a.2))
  let sorted := hread h2 a.2
  let len := sorted.length
  if len ≤ n then
    (h2, .ok (sGet sorted 0 :: (sorted.map some ++ [sGet sorted ((len : ℤ) - 1)])))
  else
    let mats := jenksMatrices sorted n
    (h2, (btk mats.1 sorted n (len : ℤ)).map
      (fun mid => sGet sorted 0 :: (mid ++ [sGet sorted ((len : ℤ) - 1)])))

/-- Heap-level embedding of `classifyEqualInterval`: the source only reads
`values` (via `Math.min`/`Math.max` spreads) and writes a fresh local
`breaks` array, so the heap is returned unchanged. -/
def classifyEqualIntervalH (h : Heap) (values : ℕ) (n : ℕ) : Heap × List ℚ :=
  (h, classifyEqualInterval (hread h values) n)

/-! ### Sum of squared deviations (for the Jenks optimality claim) -/

/-- Mean of a list of rationals (0 for the empty list, as `x / 0 = 0`). -/
def meanQ (l : List ℚ) : ℚ := l.sum / (l.length : ℚ)

/-- Sum of squared deviations from the mean. -/
def ssdOf (l : List ℚ) : ℚ := (l.map (fun x => (x - meanQ l) ^ 2)).sum

/-- Total within-class sum of squared deviations of a partition. -/
def totalSSD (p : List (List ℚ)) : ℚ := (p.map ssdOf).sum

/-- The class index a column value falls into under step semantics for the
given breaks: the number of thresholds `breaks[1..k-1]` that are `≤ v`. -/
def classOf (breaks : List ℚ) (k : ℕ) (v : ℚ) : ℕ :=
  (((breaks.drop 1).take (k - 1)).filter (fun t => t ≤ v)).length

/-- The partition of a sample induced by the breaks under step semantics. -/
def inducedPartition (breaks : List ℚ) (k : ℕ) (values : List ℚ) :
    List (List ℚ) :=
  (List.range k).map (fun i => values.filter (fun v => classOf breaks k v = i))

/-! ### Helper lemmas -/

theorem foldl_min_le_init : ∀ (t : List ℚ) (a : ℚ), t.foldl min a ≤ a := by
  intro t
  induction t with
  | nil => intro a; simp
  | cons h t ih =>
    intro a
    simpa using le_trans (ih (min a h)) (min_le_left _ _)

theorem foldl_min_le_mem : ∀ (t : List ℚ) (a x : ℚ), x ∈ t → t.foldl min a ≤ x := by
  intro t
  induction t with
  | nil => intro a x hx; cases hx
  | cons h t ih =>
    intro a x hx
    rcases List.mem_cons.mp hx with rfl | hx
    · simpa using le_trans (foldl_min_le_init t (min a x)) (min_le_right _ _)
    · simpa using ih (min a h) x hx

theorem foldl_min_mem_or : ∀ (t : List ℚ) (a : ℚ),
    t.foldl min a = a ∨ t.foldl min a ∈ t := by
  intro t
  induction t with
  | nil => intro a; left; rfl
  | cons h t ih =>
    intro a
    rcases ih (min a h) with heq | hmem
    · rcases min_choice a h with hc | hc
      · left; simpa [heq] using hc
      · right; rw [List.foldl_cons, heq, hc]; exact List.mem_cons_self _ _
    · right; exact List.mem_cons_of_mem _ (by simpa using hmem)

theorem foldl_max_le_init : ∀ (t : List ℚ) (a : ℚ), a ≤ t.foldl max a := by
  intro t
  induction t with
  | nil => intro a; simp
  | cons h t ih =>
    intro a
    simpa using le_trans (le_max_left a h) (ih (max a h))

theorem foldl_max_le_mem : ∀ (t : List ℚ) (a x : ℚ), x ∈ t → x ≤ t.foldl max a := by
  intro t
  induction t with
  | nil => intro a x hx; cases hx
  | cons h t ih =>
    intro a x hx
    rcases List.mem_cons.mp hx with rfl | hx
    · simpa using le_trans (le_max_right a x) (foldl_max_le_init t (max a x))
    · simpa using ih (max a h) x hx

theorem foldl_max_mem_or : ∀ (t : List ℚ) (a : ℚ),
    t.foldl max a = a ∨ t.foldl max a ∈ t := by
  intro t
  induction t with
  | nil => intro a; left; rfl
  | cons h t ih =>
    intro a
    rcases ih (max a h) with heq | hmem
    · rcases max_choice a h with hc | hc
      · left; simpa [heq] using hc
      · right; rw [List.foldl_cons, heq, hc]; exact List.mem_cons_self _ _
    · right; exact List.mem_cons_of_mem _ (by simpa using hmem)

theorem jsMinList_isMin (values : List ℚ) (h : values ≠ []) :
    IsMinOf (jsMinList values) values := by
  cases values with
  | nil => cases h rfl
  | cons a t =>
    constructor
    · rcases foldl_min_mem_or t a with heq | hmem
      · rw [jsMinList, heq]; exact List.mem_cons_self _ _
      · exact List.mem_cons_of_mem _ (by simpa [jsMinList] using hmem)
    · intro x hx
      rcases List.mem_cons.mp hx with rfl | hx
      · exact foldl_min_le_init t x
      · exact foldl_min_le_mem t a x hx

theorem jsMaxList_isMax (values : List ℚ) (h : values ≠ []) :
    IsMaxOf (jsMaxList values) values := by
  cases values with
  | nil => cases h rfl
  | cons a t =>
    constructor
    · rcases foldl_max_mem_or t a with heq | hmem
      · rw [jsMaxList, heq]; exact List.mem_cons_self _ _
      · exact List.mem_cons_of_mem _ (by simpa [jsMaxList] using hmem)
    · intro x hx
      rcases List.mem_cons.mp hx with rfl | hx
      · exact foldl_max_le_init t x
      · exact foldl_max_le_mem t a x hx

theorem sortAsc_sorted (l : List ℚ) : (sortAsc l).Sorted (· ≤ ·) :=
  List.sorted_insertionSort (· ≤ ·) l

theorem sortAsc_perm (l : List ℚ) : (sortAsc l).Perm l :=
  List.perm_insertionSort (· ≤ ·) l

theorem sortAsc_length (l : List ℚ) : (sortAsc l).length = l.length :=
  (sortAsc_perm l).length_eq

theorem sorted_getD_mono {l : List ℚ} (hs : l.Sorted (· ≤ ·)) {i j : ℕ}
    (hij : i ≤ j) (hj : j < l.length) : l.getD i 0 ≤ l.getD j 0 := by
  have hi : i < l.length := lt_of_le_of_lt hij hj
  rw [List.getD_eq_getElem _ _ hi, List.getD_eq_getElem _ _ hj]
  have := hs.rel_get_of_le (a := ⟨i, hi⟩) (b := ⟨j, hj⟩) (Fin.mk_le_mk.mpr hij)
  simpa using this

theorem sortAsc_getD_zero_isMin (values : List ℚ) (h : values ≠ []) :
    IsMinOf ((sortAsc values).getD 0 0) values := by
  have hlen : 0 < (sortAsc values).length := by
    rw [sortAsc_length]
    exact List.length_pos.mpr h
  constructor
  · rw [List.getD_eq_getElem _ _ hlen]
    exact (sortAsc_perm values).mem_iff.mp (List.getElem_mem _)
  · intro x hx
    have hx' : x ∈ sortAsc values := (sortAsc_perm values).mem_iff.mpr hx
    rcases List.mem_iff_get.mp hx' with ⟨n, rfl⟩
    have : (sortAsc values).getD 0 0 ≤ (sortAsc values).getD n 0 :=
      sorted_getD_mono (sortAsc_sorted values) (Nat.zero_le _) n.isLt
    rw [List.getD_eq_getElem _ _ n.isLt] at this
    simpa using this

theorem sortAsc_getD_last_isMax (values : List ℚ) (h : values ≠ []) :
    IsMaxOf ((sortAsc values).getD ((sortAsc values).length - 1) 0) values := by
  have hlen : 0 < (sortAsc values).length := by
    rw [sortAsc_length]
    exact List.length_pos.mpr h
  have hlast : (sortAsc values).length - 1 < (sortAsc values).length :=
    Nat.sub_lt hlen Nat.one_pos
  constructor
  · rw [List.getD_eq_getElem _ _ hlast]
    exact (sortAsc_perm values).mem_iff.mp (List.getElem_mem _)
  · intro x hx
    have hx' : x ∈ sortAsc values := (sortAsc_perm values).mem_iff.mpr hx
    rcases List.mem_iff_get.mp hx' with ⟨n, rfl⟩
    have : (sortAsc values).getD n 0 ≤ (sortAsc values).getD ((sortAsc values).length - 1) 0 :=
      sorted_getD_mono (sortAsc_sorted values) (Nat.le_sub_one_of_lt n.isLt) hlast
    rw [List.getD_eq_getElem _ _ n.isLt] at this
    simpa using this

theorem classifyEqualInterval_eq (values : List ℚ) (n : ℕ) :
    classifyEqualInterval values n =
      (List.range n).map (fun (i : ℕ) => jsMinList values +
        (jsMaxList values - jsMinList values) / (n : ℚ) * (i : ℚ)) ++
        [jsMaxList values] := by
  simp only [classifyEqualInterval]
  rw [List.range_succ, List.map_append, List.map_singleton, List.dropLast_concat]

theorem classifyEqualInterval_length (values : List ℚ) (n : ℕ) :
    (classifyEqualInterval values n).length = n + 1 := by
  rw [classifyEqualInterval_eq]
  simp

theorem classifyEqualInterval_head (values : List ℚ) (n : ℕ) (hn : 1 ≤ n) :
    (classifyEqualInterval values n).head? = some (jsMinList values) := by
  rw [classifyEqualInterval_eq]
  cases n with
  | zero => exact absurd hn (by simp)
  | succ m =>
    rw [List.range_succ_eq_map]
    simp

theorem classifyEqualInterval_last (values : List ℚ) (n : ℕ) :
    (classifyEqualInterval values n).getLast? = some (jsMaxList values) := by
  rw [classifyEqualInterval_eq]
  simp

theorem classifyEqualInterval_sorted (values : List ℚ) (n : ℕ)
    (hne : values ≠ []) (hn : 1 ≤ n) :
    (classifyEqualInterval values n).Sorted (· ≤ ·) := by
  obtain ⟨hmem, hmin⟩ := jsMinList_isMin values hne
  have hmnx : jsMinList values ≤ jsMaxList values :=
    le_trans ((jsMinList_isMin values hne).2 _ hmem)
      ((jsMaxList_isMax values hne).2 _ hmem)
  set mn := jsMinList values
  set mx := jsMaxList values
  have hstep : 0 ≤ (mx - mn) / (n : ℚ) := by
    apply div_nonneg (by linarith) (by exact_mod_cast Nat.zero_le n)
  have hfmx : ∀ i : ℕ, i < n → mn + (mx - mn) / (n : ℚ) * (i : ℚ) ≤ mx := by
    intro i hi
    have hn0 : (0 : ℚ) < (n : ℚ) := by exact_mod_cast Nat.pos_of_ne_zero (by omega)
    have hile : (i : ℚ) ≤ (n : ℚ) := by exact_mod_cast Nat.le_of_lt hi
    have h1 : (mx - mn) / (n : ℚ) * (i : ℚ) ≤ (mx - mn) / (n : ℚ) * (n : ℚ) :=
      mul_le_mul_of_nonneg_left hile hstep
    have h2 : (mx - mn) / (n : ℚ) * (n : ℚ) = mx - mn := by
      field_simp
    linarith
  rw [classifyEqualInterval_eq]
  apply List.pairwise_append.mpr
  refine ⟨?_, List.pairwise_singleton _ _, ?_⟩
  · apply List.pairwise_map.mpr
    apply List.Pairwise.imp_of_mem ?_ (List.pairwise_lt_range n)
    intro a b _ _ hab
    have : (a : ℚ) ≤ (b : ℚ) := by exact_mod_cast Nat.le_of_lt hab
    nlinarith
  · intro x hx y hy
    rcases List.mem_map.mp hx with ⟨i, hi, rfl⟩
    rcases List.mem_singleton.mp hy with rfl
    exact hfmx i (List.mem_range.mp hi)

theorem classifyQuantile_eq_map (values : List ℚ) (n : ℕ) :
    classifyQuantile values n =
      (0 :: ((List.range' 1 (n - 1)).map
          (fun i => i * (sortAsc values).length / n) ++
        [(sortAsc values).length - 1])).map (fun i => (sortAsc values).getD i 0) := by
  unfold classifyQuantile
  simp [List.map_map, Function.comp]

theorem classifyQuantile_length (values : List ℚ) (n : ℕ) (hn : 1 ≤ n) :
    (classifyQuantile values n).length = n + 1 := by
  rw [classifyQuantile_eq_map]
  simp
  omega

theorem classifyQuantile_head (values : List ℚ) (n : ℕ) :
    (classifyQuantile values n).head? = some ((sortAsc values).getD 0 0) := by
  rw [classifyQuantile_eq_map]
  simp

theorem classifyQuantile_last (values : List ℚ) (n : ℕ) :
    (classifyQuantile values n).getLast? =
      some ((sortAsc values).getD ((sortAsc values).length - 1) 0) := by
  rw [classifyQuantile_eq_map]
  rw [List.getLast?_eq_getLast _ (by simp)]
  simp [List.getLast_map (f := fun i => (sortAsc values).getD i 0)]

theorem classifyQuantile_sorted (values : List ℚ) (n : ℕ)
    (hne : values ≠ []) (hn : 1 ≤ n) :
    (classifyQuantile values n).Sorted (· ≤ ·) := by
  have hL : 0 < (sortAsc values).length := by
    rw [sortAsc_length]; exact List.length_pos.mpr hne
  set L := (sortAsc values).length with hLdef
  have hidx_le : ∀ i ∈ (0 :: ((List.range' 1 (n - 1)).map (fun i => i * L / n) ++
      [L - 1])), i ≤ L - 1 := by
    intro i hi
    rcases List.mem_cons.mp hi with rfl | hi
    · omega
    rcases List.mem_append.mp hi with hi | hi
    · rcases List.mem_map.mp hi with ⟨j, hj, rfl⟩
      have hjn : j < n := by
        have := List.mem_range'_1.mp hj
        omega
      have : j * L / n < L := by
        rw [Nat.div_lt_iff_lt_mul (by omega)]
        calc j * L < n * L := by
              apply Nat.mul_lt_mul_of_lt_of_le hjn (le_refl L)
              omega
          _ = L * n := Nat.mul_comm _ _
      omega
    · rcases List.mem_singleton.mp hi with rfl
      omega
  have hpw : (0 :: ((List.range' 1 (n - 1)).map (fun i => i * L / n) ++
      [L - 1])).Pairwise (· ≤ ·) := by
    apply List.pairwise_cons.mpr
    refine ⟨fun a _ => Nat.zero_le a, ?_⟩
    apply List.pairwise_append.mpr
    refine ⟨?_, List.pairwise_singleton _ _, ?_⟩
    · apply List.pairwise_map.mpr
      apply List.Pairwise.imp_of_mem ?_ (List.pairwise_lt_range' 1 (n - 1))
      intro a b _ _ hab
      exact Nat.div_le_div_right (Nat.mul_le_mul_right _ (Nat.le_of_lt hab))
    · intro x hx y hy
      rcases List.mem_singleton.mp hy with rfl
      exact hidx_le x (List.mem_cons_of_mem _ (List.mem_append_left _ hx))
  rw [classifyQuantile_eq_map]
  apply List.pairwise_map.mpr
  apply List.Pairwise.imp_of_mem ?_ hpw
  intro a b ha hb hab
  exact sorted_getD_mono (sortAsc_sorted values)
    (by exact hab) (by have := hidx_le b hb; omega)

theorem classifyJenks_degenerate (values : List ℚ) (n : ℕ) (hne : values ≠ [])
    (hlen : values.length ≤ n) :
    classifyJenks values n =
      .ok (((sortAsc values).getD 0 0 ::
        (sortAsc values ++
          [(sortAsc values).getD ((sortAsc values).length - 1) 0])).map some) := by
  have hL : 0 < (sortAsc values).length := by
    rw [sortAsc_length]; exact List.length_pos.mpr hne
  have hLe : (sortAsc values).length ≤ n := by rw [sortAsc_length]; exact hlen
  simp only [classifyJenks, if_pos hLe]
  have h0 : sGet (sortAsc values) 0 = some ((sortAsc values).getD 0 0) := by
    simp only [sGet]
    rw [if_pos ⟨le_refl 0, by exact_mod_cast hL⟩]
    rfl
  have h1 : sGet (sortAsc values) (((sortAsc values).length : ℤ) - 1) =
      some ((sortAsc values).getD ((sortAsc values).length - 1) 0) := by
    simp only [sGet]
    rw [if_pos ⟨by omega, by omega⟩]
    congr 2
    omega
  rw [h0, h1]
  simp

/-- The contract the spec states for a breaks list: `count` entries,
monotonically non-decreasing, first element the sample minimum, last
element the sample maximum. -/
def BreaksContract (values bs : List ℚ) (count : ℕ) : Prop :=
  bs.length = count ∧ bs.Sorted (· ≤ ·) ∧
    (∃ mn, bs.head? = some mn ∧ IsMinOf mn values) ∧
    (∃ mx, bs.getLast? = some mx ∧ IsMaxOf mx values)

/-- Claim C1, as stated, is false: on the non-empty sample `[1]` with
`k = 3`, `getBreaks` with the natural-breaks method returns `[1, 1, 1]` —
three values, not `k + 1 = 4`. -/
theorem C1_counterexample :
    ([1] : List ℚ) ≠ [] ∧ (3 ≤ 3 ∧ 3 ≤ 9) ∧
      getBreaks [1] "jenks" 3 = .ok [some 1, some 1, some 1] ∧
      [some (1 : ℚ), some 1, some 1].length ≠ 3 + 1 := by
  refine ⟨by simp, ⟨le_refl 3, by omega⟩, ?_, by simp⟩
  rfl

/-- Claim C1 (amended): for every non-empty sample of finite numbers and
every k in [3,9], the quantile and equal-interval methods of `getBreaks`
return exactly k+1 values, monotonically non-decreasing, with first element
the sample minimum and last element the sample maximum; the natural-breaks
method satisfies the monotonicity and endpoint parts but, whenever the
sample has N ≤ k values, returns N+2 values instead of k+1. -/
theorem C1_amended (values : List ℚ) (k : ℕ) (hne : values ≠ [])
    (hk3 : 3 ≤ k) (hk9 : k ≤ 9) :
    (∃ bs, getBreaks values "quantile" k = .ok (bs.map some) ∧
      BreaksContract values bs (k + 1)) ∧
    (∃ bs, getBreaks values "equal" k = .ok (bs.map some) ∧
      BreaksContract values bs (k + 1)) ∧
    (values.length ≤ k →
      ∃ bs, getBreaks values "jenks" k = .ok (bs.map some) ∧
        BreaksContract values bs (values.length + 2)) := by
  have hk1 : 1 ≤ k := by omega
  refine ⟨⟨classifyQuantile values k, ?_, ?_, ?_, ?_, ?_⟩,
    ⟨classifyEqualInterval values k, ?_, ?_, ?_, ?_, ?_⟩, ?_⟩
  · simp only [getBreaks]
    rw [if_neg (by decide), if_neg (by decide)]
  · exact classifyQuantile_length values k hk1
  · exact classifyQuantile_sorted values k hne hk1
  · exact ⟨_, classifyQuantile_head values k, sortAsc_getD_zero_isMin values hne⟩
  · exact ⟨_, classifyQuantile_last values k, sortAsc_getD_last_isMax values hne⟩
  · simp only [getBreaks]
    rw [if_neg (by decide), if_pos trivial]
  · exact classifyEqualInterval_length values k
  · exact classifyEqualInterval_sorted values k hne hk1
  · exact ⟨_, classifyEqualInterval_head values k hk1, jsMinList_isMin values hne⟩
  · exact ⟨_, classifyEqualInterval_last values k, jsMaxList_isMax values hne⟩
  · intro hlen
    have hmin := sortAsc_getD_zero_isMin values hne
    have hmax := sortAsc_getD_last_isMax values hne
    refine ⟨(sortAsc values).getD 0 0 ::
      (sortAsc values ++ [(sortAsc values).getD ((sortAsc values).length - 1) 0]),
      ?_, ?_, ?_, ?_, ?_⟩
    · simp only [getBreaks]
      rw [if_pos trivial]
      exact classifyJenks_degenerate values k hne hlen
    · simp [sortAsc_length]
    · apply List.pairwise_cons.mpr
      constructor
      · intro b hb
        rcases List.mem_append.mp hb with hb | hb
        · exact hmin.2 b ((sortAsc_perm values).mem_iff.mp hb)
        · rcases List.mem_singleton.mp hb with rfl
          exact hmin.2 _ hmax.1
      · apply List.pairwise_append.mpr
        refine ⟨sortAsc_sorted values, List.pairwise_singleton _ _, ?_⟩
        intro x hx y hy
        rcases List.mem_singleton.mp hy with rfl
        exact hmax.2 x ((sortAsc_perm values).mem_iff.mp hx)
    · exact ⟨_, rfl, hmin⟩
    · refine ⟨_, ?_, hmax⟩
      rw [List.getLast?_eq_getLast _ (by simp)]
      simp [List.getLast_cons, List.getLast_append]

/-- Witness for `C1_amended` at the sample `[2, 1]` with `k = 3` (which also
exercises the degenerate natural-breaks branch, as `2 ≤ 3`). -/
theorem C1_amended_witness :
    (([2, 1] : List ℚ) ≠ [] ∧ 3 ≤ 3 ∧ 3 ≤ 9) ∧
      ((∃ bs, getBreaks [2, 1] "quantile" 3 = .ok (bs.map some) ∧
        BreaksContract [2, 1] bs (3 + 1)) ∧
      (∃ bs, getBreaks [2, 1] "equal" 3 = .ok (bs.map some) ∧
        BreaksContract [2, 1] bs (3 + 1)) ∧
      (([2, 1] : List ℚ).length ≤ 3 →
        ∃ bs, getBreaks [2, 1] "jenks" 3 = .ok (bs.map some) ∧
          BreaksContract [2, 1] bs (([2, 1] : List ℚ).length + 2))) :=
  ⟨⟨by simp, le_refl 3, by decide⟩, C1_amended [2, 1] 3 (by simp) (le_refl 3) (by decide)⟩

/-- Claim C2 is false and the code contradicts its own `Fisher-Jenks exact
algorithm` comment: on the sorted sample `[7, 11, 12, 15]` with `k = 3`
(more values than classes), `classifyJenks` returns breaks
`[7, 12, 15, 15]`, whose induced partition `{7,11 | 12 | 15}` has total
within-class SSD `8`, while the valid contiguous 3-partition
`{7 | 11,12 | 15}` has total SSD `1/2 < 8`.  The cause is the dynamic
program's 1-class base row, which accumulates only elements `2..j` and so
omits the first sorted element from every first-class cost. -/
theorem C2_jenks_not_optimal :
    classifyJenks [7, 11, 12, 15] 3 = .ok [some 7, some 12, some 15, some 15] ∧
    inducedPartition [7, 12, 15, 15] 3 [7, 11, 12, 15] = [[7, 11], [12], [15]] ∧
    totalSSD [[7, 11], [12], [15]] = 8 ∧
    sortAsc [7, 11, 12, 15] = [7, 11, 12, 15] ∧
    ([[7], [11, 12], [15]] : List (List ℚ)).flatten = [7, 11, 12, 15] ∧
    (∀ c ∈ ([[7], [11, 12], [15]] : List (List ℚ)), c ≠ []) ∧
    totalSSD [[7], [11, 12], [15]] = 1 / 2 ∧
    (1 / 2 : ℚ) < 8 := by
  refine ⟨?_, ?_, ?_, ?_, by rfl, by decide, ?_, by norm_num⟩
  · norm_num [classifyJenks, sortAsc, jenksMatrices, jenksRow, btk, mget, mset, sGet,
      List.insertionSort, List.orderedInsert, List.range', List.foldl, min_def,
      WithTop.add_top, Int.toNat, Except.map]
  · norm_num [inducedPartition, classOf, List.range, List.range.loop, List.filter]
  · norm_num [totalSSD, ssdOf, meanQ]
  · norm_num [sortAsc, List.insertionSort, List.orderedInsert]
  · norm_num [totalSSD, ssdOf, meanQ]

/-- Claim C3 is false and the spec's `no exceptions propagate` requirement
is the clear intent: on the all-equal sample of six 7s with `k = 5`,
`classifyJenks` throws a `TypeError` (the backtrack index collapses to `-1`
and `mat1[-1][2]` is read), and on five 7s with `k = 4` it returns a breaks
array containing `undefined` (`sorted[-1]`), not a collapsed single value. -/
theorem C3_jenks_degenerate_throws :
    classifyJenks (List.replicate 6 (7 : ℚ)) 5 = .error () ∧
    classifyJenks (List.replicate 5 (7 : ℚ)) 4 =
      .ok [some 7, none, some 7, some 7, some 7] := by
  constructor
  · norm_num [classifyJenks, sortAsc, jenksMatrices, jenksRow, btk, mget, mset, sGet,
      List.insertionSort, List.orderedInsert, List.range', List.foldl, min_def,
      WithTop.add_top, Int.toNat, Except.map, List.replicate]
  · norm_num [classifyJenks, sortAsc, jenksMatrices, jenksRow, btk, mget, mset, sGet,
      List.insertionSort, List.orderedInsert, List.range', List.foldl, min_def,
      WithTop.add_top, Int.toNat, Except.map, List.replicate]

theorem evalStep_eq_getLastD (stops : List (ℚ × RGB)) (v : ℚ) :
    ∀ base, evalStep base stops v =
      ((stops.filter (fun s => s.1 ≤ v)).map Prod.snd).getLastD base := by
  induction stops with
  | nil => intro base; rfl
  | cons s t ih =>
    intro base
    show evalStep (if s.1 ≤ v then s.2 else base) t v = _
    by_cases h : s.1 ≤ v
    · rw [if_pos h, ih, List.filter_cons_of_pos (by simpa using h), List.map_cons,
        List.getLastD_cons]
    · rw [if_neg h, ih, List.filter_cons_of_neg (by simpa using h)]

theorem evalStep_of_below (base : RGB) (stops : List (ℚ × RGB)) (v : ℚ)
    (h : ∀ s ∈ stops, v < s.1) : evalStep base stops v = base := by
  rw [evalStep_eq_getLastD]
  rw [List.filter_eq_nil_iff.mpr (fun a ha => by simpa using not_le.mpr (h a ha))]
  rfl

theorem filter_le_threshold_eq_take (stops : List (ℚ × RGB))
    (hs : stops.Pairwise (fun a b => a.1 < b.1)) :
    ∀ i (hi : i < stops.length),
      stops.filter (fun s => s.1 ≤ (stops.get ⟨i, hi⟩).1) = stops.take (i + 1) := by
  induction stops with
  | nil => intro i hi; simp at hi
  | cons a t ih =>
    rcases List.pairwise_cons.mp hs with ⟨ha, ht⟩
    intro i hi
    cases i with
    | zero =>
      rw [show ((a :: t).get ⟨0, hi⟩) = a from rfl]
      rw [List.filter_cons_of_pos (by simp)]
      rw [List.filter_eq_nil_iff.mpr
        (fun b hb => by simpa using not_le.mpr (ha b hb))]
      rfl
    | succ j =>
      have hj : j < t.length := by simpa using hi
      rw [show ((a :: t).get ⟨j + 1, hi⟩) = t.get ⟨j, hj⟩ from rfl]
      rw [List.filter_cons_of_pos
        (by simpa using le_of_lt (ha _ (t.get_mem _ _)))]
      rw [ih ht j hj, List.take_succ_cons]

theorem getLastD_map_take (l : List (ℚ × RGB)) :
    ∀ i (hi : i < l.length) (d : RGB),
      ((l.take (i + 1)).map Prod.snd).getLastD d = (l.get ⟨i, hi⟩).2 := by
  induction l with
  | nil => intro i hi; simp at hi
  | cons a t ih =>
    intro i hi d
    cases i with
    | zero => rfl
    | succ j =>
      have hj : j < t.length := by simpa using hi
      rw [List.take_succ_cons, List.map_cons, List.getLastD_cons,
        show ((a :: t).get ⟨j + 1, hi⟩) = t.get ⟨j, hj⟩ from rfl]
      exact ih j hj a.2

theorem evalStep_at_threshold (base : RGB) (stops : List (ℚ × RGB))
    (hs : stops.Pairwise (fun a b => a.1 < b.1)) (i : ℕ) (hi : i < stops.length) :
    evalStep base stops (stops.get ⟨i, hi⟩).1 = (stops.get ⟨i, hi⟩).2 := by
  rw [evalStep_eq_getLastD, filter_le_threshold_eq_take stops hs i hi,
    getLastD_map_take stops i hi base]

theorem stepStops_length (breaks : List ℚ) (ramp : List RGB) (n : ℕ) :
    (stepStops breaks ramp n).length = n - 1 := by
  simp [stepStops]

theorem stepStops_get (breaks : List ℚ) (ramp : List RGB) (n : ℕ) (i : ℕ)
    (hi : i < (stepStops breaks ramp n).length) :
    (stepStops breaks ramp n).get ⟨i, hi⟩ =
      (breaks.getD (1 + i) 0, ramp.getD (1 + i) default) := by
  simp [stepStops, List.getElem_range']

/-- Claim C4: the graduated paint expression built by `applyGraduatedStyle`
is a step expression whose base color is `ramp[0]`, whose `k-1` stops pair
threshold `breaks[i]` with color `ramp[i]` for `i = 1 .. k-1`; under step
semantics a value below the first threshold gets the base color and a value
exactly equal to a threshold gets that threshold's color (the upper class).
Concretely, for the sample `[0.1, 0.2, 0.2, 0.5, 0.9]` with `k = 3` and the
equal-interval method the breaks are `[1/10, 11/30, 19/30, 9/10]` (within
`1/10000` of the spec's `0.3667` and `0.6333`), `0.2` falls in class 0 and
`0.5` in class 1. -/
theorem C4_graduated_step_expression (breaks : List ℚ) (ramp : List RGB)
    (n : ℕ) (hsorted : (stepStops breaks ramp n).Pairwise (fun a b => a.1 < b.1)) :
    ((stepStops breaks ramp n).length = n - 1 ∧
      ∀ i (hi : i < (stepStops breaks ramp n).length),
        (stepStops breaks ramp n).get ⟨i, hi⟩ =
          (breaks.getD (1 + i) 0, ramp.getD (1 + i) default)) ∧
    (∀ v x rest, stepStops breaks ramp n = x :: rest → v < x.1 →
      evalStep (ramp.getD 0 default) (stepStops breaks ramp n) v =
        ramp.getD 0 default) ∧
    (∀ i (hi : i < (stepStops breaks ramp n).length),
      evalStep (ramp.getD 0 default) (stepStops breaks ramp n)
          ((stepStops breaks ramp n).get ⟨i, hi⟩).1 =
        ((stepStops breaks ramp n).get ⟨i, hi⟩).2) ∧
    (classifyEqualInterval [1/10, 1/5, 1/5, 1/2, 9/10] 3 =
        [1/10, 11/30, 19/30, 9/10] ∧
      |(11 : ℚ)/30 - 3667/10000| ≤ 1/10000 ∧
      |(19 : ℚ)/30 - 6333/10000| ≤ 1/10000 ∧
      evalStep ⟨255, 243, 224⟩
        (stepStops [1/10, 11/30, 19/30, 9/10]
          [⟨255, 243, 224⟩, ⟨255, 167, 38⟩, ⟨191, 54, 12⟩] 3) (1/5) =
        ⟨255, 243, 224⟩ ∧
      evalStep ⟨255, 243, 224⟩
        (stepStops [1/10, 11/30, 19/30, 9/10]
          [⟨255, 243, 224⟩, ⟨255, 167, 38⟩, ⟨191, 54, 12⟩] 3) (1/2) =
        ⟨255, 167, 38⟩) := by
  refine ⟨⟨stepStops_length breaks ramp n, stepStops_get breaks ramp n⟩, ?_, ?_, ?_⟩
  · intro v x rest heq hv
    apply evalStep_of_below
    intro s hs
    rw [heq] at hs hsorted
    rcases List.mem_cons.mp hs with rfl | hs
    · exact hv
    · exact lt_trans hv ((List.pairwise_cons.mp hsorted).1 s hs)
  · intro i hi
    exact evalStep_at_threshold _ _ hsorted i hi
  · refine ⟨?_, by rw [abs_le]; constructor <;> norm_num,
      by rw [abs_le]; constructor <;> norm_num, ?_, ?_⟩
    · norm_num [classifyEqualInterval, jsMinList, jsMaxList, min_def, max_def,
        List.range, List.range.loop]
    · norm_num [evalStep, stepStops, List.range', List.foldl]
    · norm_num [evalStep, stepStops, List.range', List.foldl]

/-- Witness for `C4_graduated_step_expression` at breaks `[0, 1, 2, 3]`,
a three-color ramp and `k = 3`. -/
theorem C4_graduated_step_expression_witness :
    (stepStops [0, 1, 2, 3]
        [(⟨255, 243, 224⟩ : RGB), ⟨255, 167, 38⟩, ⟨191, 54, 12⟩] 3).Pairwise
      (fun a b => a.1 < b.1) ∧
    (((stepStops [0, 1, 2, 3]
        [(⟨255, 243, 224⟩ : RGB), ⟨255, 167, 38⟩, ⟨191, 54, 12⟩] 3).length = 3 - 1 ∧
      ∀ i (hi : i < (stepStops [0, 1, 2, 3]
          [(⟨255, 243, 224⟩ : RGB), ⟨255, 167, 38⟩, ⟨191, 54, 12⟩] 3).length),
        (stepStops [0, 1, 2, 3]
          [(⟨255, 243, 224⟩ : RGB), ⟨255, 167, 38⟩, ⟨191, 54, 12⟩] 3).get ⟨i, hi⟩ =
          (([0, 1, 2, 3] : List ℚ).getD (1 + i) 0,
            ([(⟨255, 243, 224⟩ : RGB), ⟨255, 167, 38⟩, ⟨191, 54, 12⟩]).getD
              (1 + i) default)) ∧
    (∀ v x rest, stepStops [0, 1, 2, 3]
        [(⟨255, 243, 224⟩ : RGB), ⟨255, 167, 38⟩, ⟨191, 54, 12⟩] 3 = x :: rest →
      v < x.1 →
      evalStep (([(⟨255, 243, 224⟩ : RGB), ⟨255, 167, 38⟩,
          ⟨191, 54, 12⟩]).getD 0 default)
        (stepStops [0, 1, 2, 3]
          [(⟨255, 243, 224⟩ : RGB), ⟨255, 167, 38⟩, ⟨191, 54, 12⟩] 3) v =
        ([(⟨255, 243, 224⟩ : RGB), ⟨255, 167, 38⟩, ⟨191, 54, 12⟩]).getD 0 default) ∧
    (∀ i (hi : i < (stepStops [0, 1, 2, 3]
        [(⟨255, 243, 224⟩ : RGB), ⟨255, 167, 38⟩, ⟨191, 54, 12⟩] 3).length),
      evalStep (([(⟨255, 243, 224⟩ : RGB), ⟨255, 167, 38⟩,
          ⟨191, 54, 12⟩]).getD 0 default)
        (stepStops [0, 1, 2, 3]
          [(⟨255, 243, 224⟩ : RGB), ⟨255, 167, 38⟩, ⟨191, 54, 12⟩] 3)
          ((stepStops [0, 1, 2, 3]
            [(⟨255, 243, 224⟩ : RGB), ⟨255, 167, 38⟩, ⟨191, 54, 12⟩] 3).get
              ⟨i, hi⟩).1 =
        ((stepStops [0, 1, 2, 3]
          [(⟨255, 243, 224⟩ : RGB), ⟨255, 167, 38⟩, ⟨191, 54, 12⟩] 3).get
            ⟨i, hi⟩).2) ∧
    (classifyEqualInterval [1/10, 1/5, 1/5, 1/2, 9/10] 3 =
        [1/10, 11/30, 19/30, 9/10] ∧
      |(11 : ℚ)/30 - 3667/10000| ≤ 1/10000 ∧
      |(19 : ℚ)/30 - 6333/10000| ≤ 1/10000 ∧
      evalStep ⟨255, 243, 224⟩
        (stepStops [1/10, 11/30, 19/30, 9/10]
          [⟨255, 243, 224⟩, ⟨255, 167, 38⟩, ⟨191, 54, 12⟩] 3) (1/5) =
        ⟨255, 243, 224⟩ ∧
      evalStep ⟨255, 243, 224⟩
        (stepStops [1/10, 11/30, 19/30, 9/10]
          [⟨255, 243, 224⟩, ⟨255, 167, 38⟩, ⟨191, 54, 12⟩] 3) (1/2) =
        ⟨255, 167, 38⟩)) :=
  ⟨by decide,
    C4_graduated_step_expression [0, 1, 2, 3]
      [⟨255, 243, 224⟩, ⟨255, 167, 38⟩, ⟨191, 54, 12⟩] 3 (by decide)⟩

theorem classifyQuantile_middle (values : List ℚ) (k : ℕ) (i : ℕ)
    (h1 : 1 ≤ i) (h2 : i ≤ k - 1) :
    (classifyQuantile values k).getD i 0 =
      (sortAsc values).getD (i * values.length / k) 0 := by
  obtain ⟨j, rfl⟩ : ∃ j, i = j + 1 := ⟨i - 1, by omega⟩
  have hj : j < k - 1 := by omega
  unfold classifyQuantile
  rw [List.getD_cons_succ]
  rw [List.getD_append _ _ _ _ (by simpa using hj)]
  rw [List.getD_eq_getElem _ _ (by simpa using hj)]
  rw [List.getElem_map, List.getElem_range']
  rw [sortAsc_length, show 1 + 1 * j = j + 1 from by omega]

/-- Claim C5: the quantile method sorts ascending and returns
break `i` (for `1 ≤ i ≤ k-1`) equal to the sorted value at index
`⌊i·N/k⌋`, with break 0 the minimum and break k the maximum; duplicate
breaks are permitted (no deduplication, witnessed by the all-ones sample),
and on the uniform sample `[1..100]` with `k = 4` the breaks are
`[1, 26, 51, 76, 100]` — approximately `[1, 25, 50, 75, 100]`. -/
theorem C5_quantile_formula (values : List ℚ) (k : ℕ) (hne : values ≠ [])
    (hk3 : 3 ≤ k) (hk9 : k ≤ 9) :
    (∀ i, 1 ≤ i → i ≤ k - 1 →
      (classifyQuantile values k).getD i 0 =
        (sortAsc values).getD (i * values.length / k) 0) ∧
    (∃ mn, (classifyQuantile values k).head? = some mn ∧ IsMinOf mn values) ∧
    (∃ mx, (classifyQuantile values k).getLast? = some mx ∧ IsMaxOf mx values) ∧
    getBreaks values "quantile" k = .ok ((classifyQuantile values k).map some) ∧
    classifyQuantile ((List.range' 1 100).map (fun (i : ℕ) => (i : ℚ))) 4 =
      [1, 26, 51, 76, 100] ∧
    classifyQuantile [1, 1, 1, 1, 2] 4 = [1, 1, 1, 1, 2] := by
  refine ⟨fun i h1 h2 => classifyQuantile_middle values k i h1 h2,
    ⟨_, classifyQuantile_head values k, sortAsc_getD_zero_isMin values hne⟩,
    ⟨_, classifyQuantile_last values k, sortAsc_getD_last_isMax values hne⟩,
    ?_, ?_, ?_⟩
  · simp only [getBreaks]
    rw [if_neg (by decide), if_neg (by decide)]
  · have hs : ((List.range' 1 100).map (fun (i : ℕ) => (i : ℚ))).Sorted (· ≤ ·) := by
      apply List.pairwise_map.mpr
      apply List.Pairwise.imp_of_mem ?_ (List.pairwise_lt_range' 1 100)
      intro a b _ _ hab
      exact_mod_cast Nat.le_of_lt hab
    unfold classifyQuantile
    rw [show sortAsc ((List.range' 1 100).map (fun (i : ℕ) => (i : ℚ))) =
        (List.range' 1 100).map (fun (i : ℕ) => (i : ℚ)) from
      List.Sorted.insertionSort_eq hs]
    norm_num [List.range', List.getD_eq_getElem, List.getElem_range']
  · norm_num [classifyQuantile, sortAsc, List.insertionSort, List.orderedInsert,
      List.range', List.getD]

/-- Witness for `C5_quantile_formula` at the sample `[5, 2, 9, 4]` with
`k = 3`. -/
theorem C5_quantile_formula_witness :
    (([5, 2, 9, 4] : List ℚ) ≠ [] ∧ 3 ≤ 3 ∧ 3 ≤ 9) ∧
    ((∀ i, 1 ≤ i → i ≤ 3 - 1 →
      (classifyQuantile [5, 2, 9, 4] 3).getD i 0 =
        (sortAsc [5, 2, 9, 4]).getD (i * ([5, 2, 9, 4] : List ℚ).length / 3) 0) ∧
    (∃ mn, (classifyQuantile [5, 2, 9, 4] 3).head? = some mn ∧
      IsMinOf mn [5, 2, 9, 4]) ∧
    (∃ mx, (classifyQuantile [5, 2, 9, 4] 3).getLast? = some mx ∧
      IsMaxOf mx [5, 2, 9, 4]) ∧
    getBreaks [5, 2, 9, 4] "quantile" 3 =
      .ok ((classifyQuantile [5, 2, 9, 4] 3).map some) ∧
    classifyQuantile ((List.range' 1 100).map (fun (i : ℕ) => (i : ℚ))) 4 =
      [1, 26, 51, 76, 100] ∧
    classifyQuantile [1, 1, 1, 1, 2] 4 = [1, 1, 1, 1, 2]) :=
  ⟨⟨by simp, le_refl 3, by decide⟩,
    C5_quantile_formula [5, 2, 9, 4] 3 (by simp) (le_refl 3) (by decide)⟩

theorem interpolateRampToN_of_length_eq (ramp : List RGB) (k : ℕ)
    (h : ramp.length = k) : interpolateRampToN ramp k = ramp := by
  unfold interpolateRampToN
  rw [if_pos h]

theorem interpolateRampToN_length (ramp : List RGB) (k : ℕ) :
    (interpolateRampToN ramp k).length = k := by
  unfold interpolateRampToN
  by_cases h : ramp.length = k
  · rw [if_pos h]; exact h
  · rw [if_neg h]; simp

/-- Claim C6: `interpolateRampToN` returns exactly k colors (and is a pure,
hence deterministic, function); a base ramp already of length k is returned
as-is; and re-resampling to the same k is the identity, so
`resolveRamp (resolveRamp base k false) k false = resolveRamp base k false`. -/
theorem C6_resolveRamp_idempotent (ramp : List RGB) (k : ℕ)
    (h2r : 2 ≤ ramp.length) (h2k : 2 ≤ k) :
    (interpolateRampToN ramp k).length = k ∧
    (ramp.length = k → interpolateRampToN ramp k = ramp) ∧
    interpolateRampToN (interpolateRampToN ramp k) k =
      interpolateRampToN ramp k :=
  ⟨interpolateRampToN_length ramp k,
    fun h => interpolateRampToN_of_length_eq ramp k h,
    interpolateRampToN_of_length_eq _ k (interpolateRampToN_length ramp k)⟩

/-- Witness for `C6_resolveRamp_idempotent` at a 2-stop ramp stretched to
5 colors. -/
theorem C6_resolveRamp_idempotent_witness :
    (2 ≤ ([(⟨255, 243, 224⟩ : RGB), ⟨191, 54, 12⟩] : List RGB).length ∧ 2 ≤ 5) ∧
    ((interpolateRampToN [(⟨255, 243, 224⟩ : RGB), ⟨191, 54, 12⟩] 5).length = 5 ∧
    (([(⟨255, 243, 224⟩ : RGB), ⟨191, 54, 12⟩] : List RGB).length = 5 →
      interpolateRampToN [(⟨255, 243, 224⟩ : RGB), ⟨191, 54, 12⟩] 5 =
        [⟨255, 243, 224⟩, ⟨191, 54, 12⟩]) ∧
    interpolateRampToN
        (interpolateRampToN [(⟨255, 243, 224⟩ : RGB), ⟨191, 54, 12⟩] 5) 5 =
      interpolateRampToN [(⟨255, 243, 224⟩ : RGB), ⟨191, 54, 12⟩] 5) :=
  ⟨⟨by simp, by decide⟩,
    C6_resolveRamp_idempotent [⟨255, 243, 224⟩, ⟨191, 54, 12⟩] 5
      (by simp) (by decide)⟩

/-- Claim C7: on every min-handle drag event the new `selMin` is clamped to
at most `selMax - ε` with `ε = (absMax - absMin) · 1/100`, and the emitted
range filter carries the clamped value (symmetrically for the max handle);
concretely with absMin = 0, absMax = 100, selMax = 80 and the pointer at the
position of value 90, `selMin` becomes `79 = 80 - ε` and the emitted filter
is `range col 79 80`. -/
theorem C7_drag_clamped (col : String) (absMin absMax selMin selMax : ℚ)
    (clientX rectLeft rectWidth : ℚ) (hw : 0 < rectWidth) :
    ((onMoveMin col absMin absMax selMax clientX rectLeft rectWidth).1 ≤
        selMax - (absMax - absMin) * (1 / 100) ∧
      (onMoveMin col absMin absMax selMax clientX rectLeft rectWidth).2 =
        applyRangeFilter col
          (onMoveMin col absMin absMax selMax clientX rectLeft rectWidth).1
          selMax) ∧
    (selMin + (absMax - absMin) * (1 / 100) ≤
        (onMoveMax col absMin absMax selMin clientX rectLeft rectWidth).1 ∧
      (onMoveMax col absMin absMax selMin clientX rectLeft rectWidth).2 =
        applyRangeFilter col selMin
          (onMoveMax col absMin absMax selMin clientX rectLeft rectWidth).1) ∧
    onMoveMin "confidence" 0 100 80 90 0 100 =
      (79, applyRangeFilter "confidence" 79 80) := by
  refine ⟨⟨min_le_right _ _, rfl⟩, ⟨le_max_right _ _, rfl⟩, ?_⟩
  have h1 : max (0 : ℚ) (min 1 ((90 - 0) / 100)) = 9 / 10 := by
    rw [show ((90 : ℚ) - 0) / 100 = 9 / 10 by norm_num,
      min_eq_right (by norm_num), max_eq_right (by norm_num)]
  simp only [onMoveMin, h1]
  norm_num [min_def]

/-- Witness for `C7_drag_clamped` at the spec's concrete drag scenario. -/
theorem C7_drag_clamped_witness :
    (0 : ℚ) < 100 ∧
    (((onMoveMin "confidence" 0 100 80 90 0 100).1 ≤
        80 - (100 - 0) * (1 / 100) ∧
      (onMoveMin "confidence" 0 100 80 90 0 100).2 =
        applyRangeFilter "confidence"
          (onMoveMin "confidence" 0 100 80 90 0 100).1 80) ∧
    ((20 : ℚ) + (100 - 0) * (1 / 100) ≤
        (onMoveMax "confidence" 0 100 20 90 0 100).1 ∧
      (onMoveMax "confidence" 0 100 20 90 0 100).2 =
        applyRangeFilter "confidence" 20
          (onMoveMax "confidence" 0 100 20 90 0 100).1) ∧
    onMoveMin "confidence" 0 100 80 90 0 100 =
      (79, applyRangeFilter "confidence" 79 80)) :=
  ⟨by decide, C7_drag_clamped "confidence" 0 100 20 80 90 0 100 (by decide)⟩

/-- Claim C8: the categorical filter is `null` when every observed category
is visible, always-false when none is, and otherwise the inclusion list of
the still-visible category values; toggling a category is an involution on
the hidden set, so toggling any category off and back on restores the
original no-filter predicate exactly. -/
theorem C8_categorical_filter (col : String) (unique : List String)
    (hidden : Finset String) (val : String) :
    ((∀ v ∈ unique, v ∉ hidden) →
      applyCategoricalFilter col unique hidden = .null) ∧
    (unique ≠ [] → (∀ v ∈ unique, v ∈ hidden) →
      applyCategoricalFilter col unique hidden = .boolFalse) ∧
    ((∃ v ∈ unique, v ∈ hidden) → (∃ v ∈ unique, v ∉ hidden) →
      applyCategoricalFilter col unique hidden =
        .matchIn col (unique.filter (fun v => v ∉ hidden))) ∧
    toggleCategory (toggleCategory hidden val) val = hidden ∧
    ((∀ v ∈ unique, v ∉ hidden) →
      applyCategoricalFilter col unique
        (toggleCategory (toggleCategory hidden val) val) = .null) := by
  have htoggle : toggleCategory (toggleCategory hidden val) val = hidden := by
    by_cases h : val ∈ hidden
    · have h1 : toggleCategory hidden val = hidden.erase val := by
        rw [toggleCategory, if_pos h]
      rw [h1, toggleCategory, if_neg (Finset.not_mem_erase val hidden),
        Finset.insert_erase h]
    · have h1 : toggleCategory hidden val = insert val hidden := by
        rw [toggleCategory, if_neg h]
      rw [h1, toggleCategory, if_pos (Finset.mem_insert_self val hidden),
        Finset.erase_insert h]
  have hall : (∀ v ∈ unique, v ∉ hidden) →
      applyCategoricalFilter col unique hidden = .null := by
    intro h
    have hf : unique.filter (fun v => v ∉ hidden) = unique :=
      List.filter_eq_self.mpr (fun a ha => by simpa using h a ha)
    rw [applyCategoricalFilter]
    simp only [hf]
    rw [if_pos trivial]
  refine ⟨hall, ?_, ?_, htoggle, fun h => by rw [htoggle]; exact hall h⟩
  · intro hne h
    have hf : unique.filter (fun v => v ∉ hidden) = [] :=
      List.filter_eq_nil_iff.mpr (fun a ha => by simpa using h a ha)
    rw [applyCategoricalFilter]
    simp only [hf, List.length_nil]
    rw [if_neg (ne_of_lt (List.length_pos.mpr hne)), if_pos trivial]
  · rintro ⟨a, ha, hahid⟩ ⟨b, hb, hbvis⟩
    have hlt : (unique.filter (fun v => v ∉ hidden)).length < unique.length :=
      List.length_filter_lt_length_iff_exists.mpr ⟨a, ha, by simpa using hahid⟩
    have hpos : 0 < (unique.filter (fun v => v ∉ hidden)).length :=
      List.length_pos.mpr (List.ne_nil_of_mem
        (List.mem_filter.mpr ⟨hb, by simpa using hbvis⟩))
    rw [applyCategoricalFilter]
    rw [if_neg (ne_of_lt hlt), if_neg (Ne.symm (ne_of_lt hpos))]

/-- Witness for `C8_categorical_filter`: concrete filters for two observed
categories under an empty, a full, and a one-element hidden set, and a
concrete toggle round trip. -/
theorem C8_categorical_filter_witness :
    applyCategoricalFilter "kind" ["a", "b"] ∅ = .null ∧
    applyCategoricalFilter "kind" ["a", "b"] {"a", "b"} = .boolFalse ∧
    applyCategoricalFilter "kind" ["a", "b"] {"b"} = .matchIn "kind" ["a"] ∧
    toggleCategory (toggleCategory ∅ "a") "a" = (∅ : Finset String) ∧
    applyCategoricalFilter "kind" ["a", "b"]
      (toggleCategory (toggleCategory ∅ "a") "a") = .null := by
  refine ⟨(C8_categorical_filter "kind" ["a", "b"] ∅ "a").1 (by decide),
    (C8_categorical_filter "kind" ["a", "b"] {"a", "b"} "a").2.1 (by decide)
      (by decide),
    ?_,
    (C8_categorical_filter "kind" ["a", "b"] ∅ "a").2.2.2.1,
    (C8_categorical_filter "kind" ["a", "b"] ∅ "a").2.2.2.2 (by decide)⟩
  rw [(C8_categorical_filter "kind" ["a", "b"] {"b"} "a").2.2.1 (by decide)
    (by decide)]
  decide

/-- Claim C9: whenever a new query result set arrives — regardless of the
previous state, in particular even if the new result has the same column
names — the style settings are reset to the defaults (mode `single`, first
available column, method `quantile`, 5 classes, the `oranges` ramp, which is
the first ramp, not inverted, opacity 85 on the source's 0–100 scale, i.e.
0.85) and the filter state is cleared (no range filter, empty
hidden-category set, no stale legend data, no selection, style not
applied). -/
theorem C9_reset_on_new_result (st : AppState) (rows : List ℕ)
    (cols : List String) (geojsonColName : Option String) (hasGeometry : Bool) :
    (onQueryResult st rows cols geojsonColName hasGeometry).styleSettings.mode =
        "single" ∧
    (onQueryResult st rows cols geojsonColName hasGeometry).styleSettings.method =
        "quantile" ∧
    (onQueryResult st rows cols geojsonColName hasGeometry).styleSettings.nClasses =
        5 ∧
    (onQueryResult st rows cols geojsonColName hasGeometry).styleSettings.ramp =
        "oranges" ∧
    (onQueryResult st rows cols geojsonColName hasGeometry).styleSettings.rampInverted =
        false ∧
    (onQueryResult st rows cols geojsonColName hasGeometry).styleSettings.singleColor =
        "#f0a500" ∧
    (onQueryResult st rows cols geojsonColName hasGeometry).styleSettings.opacity =
        85 ∧
    (onQueryResult st rows cols geojsonColName hasGeometry).styleSettings.col =
        (if hasGeometry then
          (cols.filter (fun c => decide (some c ≠ geojsonColName) &&
            decide (c ≠ "__id"))).head?
        else none) ∧
    (onQueryResult st rows cols geojsonColName hasGeometry).hiddenCategories = ∅ ∧
    (onQueryResult st rows cols geojsonColName hasGeometry).legendFilterRange =
        none ∧
    (onQueryResult st rows cols geojsonColName hasGeometry).legendAllValues = [] ∧
    (onQueryResult st rows cols geojsonColName hasGeometry).legendBreaks = [] ∧
    (onQueryResult st rows cols geojsonColName hasGeometry).selectedIds = ∅ ∧
    (onQueryResult st rows cols geojsonColName hasGeometry).styleApplied = false := by
  cases hasGeometry with
  | false =>
    simp [onQueryResult, updateStylePanelModel, DEFAULT_STYLE]
  | true =>
    simp only [onQueryResult, updateStylePanelModel, Bool.not_true,
      Bool.false_eq_true, if_false, if_true]
    cases hopt : (cols.filter (fun c => decide (some c ≠ geojsonColName) &&
        decide (c ≠ "__id"))).head? with
    | none => simp [hopt, DEFAULT_STYLE]
    | some c => simp [hopt, DEFAULT_STYLE]

theorem hread_halloc (h : Heap) (l : List ℚ) :
    hread (halloc h l).1 (halloc h l).2 = l := by
  unfold halloc hread
  rw [List.getD_eq_getElem _ _ (by simp)]
  exact List.getElem_concat_length h l h.length rfl (by simp)

theorem hread_halloc_old (h : Heap) (l : List ℚ) (r : ℕ) (hr : r < h.length) :
    hread (halloc h l).1 r = hread h r := by
  unfold halloc hread
  exact List.getD_append h [l] [] r hr

theorem hread_hwrite_self (h : Heap) (r : ℕ) (l : List ℚ) (hr : r < h.length) :
    hread (hwrite h r l) r = l := by
  unfold hwrite hread
  rw [List.getD_eq_getElem _ _ (by simpa using hr)]
  exact List.getElem_set_self (by simpa using hr)

theorem hread_hwrite_ne (h : Heap) (s r : ℕ) (l : List ℚ) (hne : s ≠ r) :
    hread (hwrite h s l) r = hread h r := by
  unfold hwrite hread
  by_cases hr : r < h.length
  · rw [List.getD_eq_getElem _ _ (by simpa using hr),
      List.getD_eq_getElem _ _ hr]
    exact List.getElem_set_ne hne (by simpa using hr)
  · rw [List.getD_eq_default _ _ (by simpa using Nat.le_of_not_lt hr),
      List.getD_eq_default _ _ (Nat.le_of_not_lt hr)]

theorem sortedCopy_reads (h : Heap) (r : ℕ) (hr : r < h.length) :
    hread (hwrite (halloc h (hread h r)).1 (halloc h (hread h r)).2
        (sortAsc (hread (halloc h (hread h r)).1 (halloc h (hread h r)).2)))
      (halloc h (hread h r)).2 = sortAsc (hread h r) ∧
    hread (hwrite (halloc h (hread h r)).1 (halloc h (hread h r)).2
        (sortAsc (hread (halloc h (hread h r)).1 (halloc h (hread h r)).2)))
      r = hread h r := by
  constructor
  · rw [hread_halloc h (hread h r)]
    exact hread_hwrite_self _ _ _ (by simp [halloc])
  · rw [hread_hwrite_ne _ _ _ _ (by simp [halloc]; omega)]
    exact hread_halloc_old h (hread h r) r hr

/-- Claim C10: none of the three classification functions mutates the
caller's `values` array: the sorting methods sort a fresh copy (a new heap
cell), equal-interval only reads, and after each call the caller's array is
element-for-element unchanged while the computed breaks agree with the pure
classification functions. -/
theorem C10_no_mutation (h : Heap) (r : ℕ) (n : ℕ) (hr : r < h.length) :
    hread (classifyQuantileH h r n).1 r = hread h r ∧
    (classifyQuantileH h r n).2 = classifyQuantile (hread h r) n ∧
    hread (classifyJenksH h r n).1 r = hread h r ∧
    (classifyJenksH h r n).2 = classifyJenks (hread h r) n ∧
    (classifyEqualIntervalH h r n).1 = h ∧
    (classifyEqualIntervalH h r n).2 = classifyEqualInterval (hread h r) n := by
  obtain ⟨hsorted, hold⟩ := sortedCopy_reads h r hr
  have hQ : classifyQuantileH h r n =
      (hwrite (halloc h (hread h r)).1 (halloc h (hread h r)).2
        (sortAsc (hread (halloc h (hread h r)).1 (halloc h (hread h r)).2)),
       classifyQuantile (hread h r) n) := by
    simp only [classifyQuantileH, classifyQuantile]
    rw [hsorted]
  have hJ : classifyJenksH h r n =
      (hwrite (halloc h (hread h r)).1 (halloc h (hread h r)).2
        (sortAsc (hread (halloc h (hread h r)).1 (halloc h (hread h r)).2)),
       classifyJenks (hread h r) n) := by
    simp only [classifyJenksH, classifyJenks]
    rw [hsorted]
    by_cases hc : (sortAsc (hread h r)).length ≤ n
    · rw [if_pos hc, if_pos hc]
    · rw [if_neg hc, if_neg hc]
  refine ⟨?_, ?_, ?_, ?_, rfl, rfl⟩
  · rw [hQ]
    exact hold
  · rw [hQ]
  · rw [hJ]
    exact hold
  · rw [hJ]

/-- Witness for `C10_no_mutation` on a one-cell heap holding `[3, 1, 2]`. -/
theorem C10_no_mutation_witness :
    0 < ([[3, 1, 2]] : Heap).length ∧
    (hread (classifyQuantileH [[3, 1, 2]] 0 3).1 0 = hread [[3, 1, 2]] 0 ∧
    (classifyQuantileH [[3, 1, 2]] 0 3).2 = classifyQuantile (hread [[3, 1, 2]] 0) 3 ∧
    hread (classifyJenksH [[3, 1, 2]] 0 3).1 0 = hread [[3, 1, 2]] 0 ∧
    (classifyJenksH [[3, 1, 2]] 0 3).2 = classifyJenks (hread [[3, 1, 2]] 0) 3 ∧
    (classifyEqualIntervalH [[3, 1, 2]] 0 3).1 = [[3, 1, 2]] ∧
    (classifyEqualIntervalH [[3, 1, 2]] 0 3).2 =
      classifyEqualInterval (hread [[3, 1, 2]] 0) 3) :=
  ⟨by simp, C10_no_mutation [[3, 1, 2]] 0 3 (by simp)⟩

end SpatialSqlExplorer

